import Mathlib

/-!
Verification development for the audio-to-guitar-tab converter.

The repository ships the React frontend (FileUploader.js, MidiPreview.js,
TabPreview.js) while the backend core (chord grouping, string-fret
assignment, tab building in midi_to_tab.py) is referenced by the README and
start scripts but its file is not present.  Frontend functions are embedded
directly from their JavaScript source; the backend core is modelled from the
specification, each such definition marked `Modelled from the spec:`.

Numeric conventions: pitches, frets and velocities are `Int`; times, the
grouping window and solver costs are `ℚ` (the JS numbers only ever hold
exact decimal fractions in the scenarios of interest).
-/

namespace GuitarTab

/-- Embeds `stringNames` from src/frontend/src/components/TabPreview.js line 8. -/
def stringNames : List String := ["E", "B", "G", "D", "A", "E"]

/-- Embeds `stringTuning` from src/frontend/src/components/TabPreview.js line 9:
MIDI note numbers for standard tuning, indexed 0 (high e) to 5 (low E).
In the source it is a `const` local never reassigned, so modelling it as a
plain definition is faithful. -/
def stringTuning : List Int := [64, 59, 55, 50, 45, 40]

/-- A tablature entry as consumed by TabPreview.js: a time stamp and one fret
value per string, `-1` meaning "not played". -/
structure TabEntry where
  time : ℚ
  strings : List Int
deriving Repr, DecidableEq

/-- The record returned by `getTabStats` in TabPreview.js. -/
structure TabStats where
  totalChords : Nat
  totalNotes : Nat
  usedStrings : Nat
  fretRange : Option (Int × Int)
deriving Repr, DecidableEq

/-- One step of the JS fret-range accumulator.  The source tracks
`{min: Infinity, max: -Infinity}` and reports `null` when `min` stayed
`Infinity`; the sentinel pair is modelled as an `Option` that becomes `some`
at the first played fret. -/
def fretRangeStep (r : Option (Int × Int)) (f : Int) : Option (Int × Int) :=
  match r with
  | none => some (f, f)
  | some (mn, mx) => some (min mn f, max mx f)

/-- The body of the nested `forEach` of `getTabStats`: a played slot adds
its string index to the used set and feeds the fret accumulator. -/
def statsStep (st : Finset Nat × Option (Int × Int)) (p : Nat × Int) :
    Finset Nat × Option (Int × Int) :=
  if 0 ≤ p.2 then (insert p.1 st.1, fretRangeStep st.2 p.2) else st

/-- Embeds `getTabStats` from src/frontend/src/components/TabPreview.js
lines 153-179 (the non-null branch: the input is an array).  `totalNotes`
mirrors the `reduce` over per-chord filtered slot counts; the second fold
mirrors the nested `forEach` that feeds the `usedStrings` set and the
min/max fret accumulator. -/
def getTabStats (tabData : List TabEntry) : TabStats :=
  let totalNotes := tabData.foldl
    (fun acc chord => acc + (chord.strings.filter (fun fret => 0 ≤ fret)).length) 0
  let scanned := tabData.foldl
    (fun st chord => chord.strings.enum.foldl statsStep st)
    ((∅ : Finset Nat), (none : Option (Int × Int)))
  { totalChords := tabData.length
    totalNotes := totalNotes
    usedStrings := scanned.1.card
    fretRange := scanned.2 }

/-- All string slots of a tab, each tagged with its string index, flattened
across entries.  Used to state the aggregate-statistics claims
independently of the fold in `getTabStats`. -/
def allSlots (tabData : List TabEntry) : List (Nat × Int) :=
  tabData.flatMap (fun chord => chord.strings.enum)

/-- The played (fret ≥ 0) fret values of a tab, flattened across entries. -/
def playedFrets (tabData : List TabEntry) : List Int :=
  (tabData.flatMap TabEntry.strings).filter (fun f => 0 ≤ f)

/-- A browser `File` as seen by FileUploader.js: name, MIME type, byte size. -/
structure JsFile where
  name : String
  type : String
  size : Nat
deriving Repr, DecidableEq

/-- The `{valid, error}` record returned by `validateFile`. -/
structure ValidationResult where
  valid : Bool
  error : Option String
deriving Repr, DecidableEq

/-- One entry of the `uploadStatus` array built in `onDrop`. -/
structure UploadStatus where
  name : String
  status : String
  error : Option String
  progress : Nat
deriving Repr, DecidableEq

/-- Embeds `supportedTypes` from src/frontend/src/components/FileUploader.js
line 11. -/
def supportedTypes : List String := ["audio/mpeg", "audio/wav", "audio/flac", "audio/x-flac"]

/-- Embeds `maxSize` from src/frontend/src/components/FileUploader.js line 12. -/
def maxSize : Nat := 50 * 1024 * 1024

/-- The test `file.name.match(/\.(mp3|wav|flac)$/i)` from FileUploader.js
line 14: the pattern is anchored at the end and case-insensitive, so it is
truthy exactly when the lowercased name ends in one of the three
extensions. -/
def matchesAudioExt (name : String) : Bool :=
  name.toLower.endsWith ".mp3" || name.toLower.endsWith ".wav" ||
    name.toLower.endsWith ".flac"

/-- Embeds `validateFile` from src/frontend/src/components/FileUploader.js
lines 10-23, keeping the source's check order. -/
def validateFile (f : JsFile) : ValidationResult :=
  if ¬ (supportedTypes.contains f.type) ∧ ¬ (matchesAudioExt f.name = true) then
    ⟨false, some "Unsupported file type. Please use MP3, WAV, or FLAC."⟩
  else if maxSize < f.size then
    ⟨false, some "File too large. Maximum size is 50MB."⟩
  else ⟨true, none⟩

/-- The status record `onDrop` builds for one file (FileUploader.js
lines 35-40). -/
def statusFor (f : JsFile) : UploadStatus :=
  ⟨f.name, if (validateFile f).valid then "uploading" else "error",
    (validateFile f).error, 0⟩

/-- The pure planning part of `onDrop` (FileUploader.js lines 29-45): the
per-file validations yield the initial status array, and only the valid
files are kept for the POST. -/
def onDropPlan (files : List JsFile) : List UploadStatus × List JsFile :=
  let fileValidations := files.map (fun f => (f, validateFile f))
  (fileValidations.map (fun fv => statusFor fv.1),
    (fileValidations.filter (fun fv => fv.2.valid)).map Prod.fst)

/-- One simulated MIDI note from MidiPreview.js lines 16-21.  The JS field
`end` is a Lean keyword and is embedded as `endTime`. -/
structure MidiNote where
  pitch : Int
  start : ℚ
  endTime : ℚ
  velocity : Int
deriving Repr, DecidableEq

/-- One simulated instrument record from MidiPreview.js lines 22-24. -/
structure Instrument where
  name : String
  program : Nat
  noteCount : Nat
deriving Repr, DecidableEq

/-- The `midiData` payload set by the `useEffect` in MidiPreview.js. -/
structure MidiData where
  notes : List MidiNote
  instruments : List Instrument
deriving Repr, DecidableEq

/-- Embeds the `setMidiData` payload of MidiPreview.js lines 14-25.  The
effect depends on `fileId` only for re-triggering: the payload it stores is
this constant, so the displayed note data is a constant function of
`fileId`. -/
def midiDataFor (fileId : String) : MidiData :=
  { notes :=
      [ ⟨60, 0, 1/2, 80⟩
      , ⟨64, 1/2, 1, 75⟩
      , ⟨67, 1, 3/2, 85⟩
      , ⟨72, 3/2, 2, 90⟩ ]
    instruments := [⟨"Piano", 0, 4⟩] }

/-- Embeds the `setDuration(2.0)` call of MidiPreview.js line 26. -/
def durationFor (fileId : String) : ℚ := 2

/-- Modelled from the spec: a NoteEvent `(pitch, onset, offset, velocity)`
(spec §3), produced by the transcription collaborator.  The backend file
carrying the converter (midi_to_tab.py) is not present under src/. -/
structure NoteEvent where
  pitch : Int
  onset : ℚ
  offset : ℚ
  velocity : Int
deriving Repr, DecidableEq

/-- Modelled from the spec: the Chord Grouper's sort order (spec §4.2),
"sort NoteEvents by onset (stable, ties broken by pitch ascending)". -/
def eventLe (a b : NoteEvent) : Prop :=
  a.onset < b.onset ∨ (a.onset = b.onset ∧ a.pitch ≤ b.pitch)

instance : DecidableRel eventLe := fun a b => by
  unfold eventLe; infer_instance

instance : IsTotal NoteEvent eventLe :=
  ⟨fun a b => by
    unfold eventLe
    rcases lt_trichotomy a.onset b.onset with h | h | h
    · exact Or.inl (Or.inl h)
    · rcases le_total a.pitch b.pitch with hp | hp
      · exact Or.inl (Or.inr ⟨h, hp⟩)
      · exact Or.inr (Or.inr ⟨h.symm, hp⟩)
    · exact Or.inr (Or.inl h)⟩

instance : IsTrans NoteEvent eventLe :=
  ⟨fun a b c hab hbc => by
    unfold eventLe at *
    rcases hab with h1 | ⟨h1, hp1⟩
    · rcases hbc with h2 | ⟨h2, _⟩
      · exact Or.inl (h1.trans h2)
      · exact Or.inl (h2 ▸ h1)
    · rcases hbc with h2 | ⟨h2, hp2⟩
      · exact Or.inl (h1 ▸ h2)
      · exact Or.inr ⟨h1.trans h2, hp1.trans hp2⟩⟩

/-- Modelled from the spec: the defensive sort of §4.2 and §6, realised with
insertion sort (stable). -/
def sortEvents (evs : List NoteEvent) : List NoteEvent :=
  List.insertionSort eventLe evs

/-- Modelled from the spec: the sweep of §4.2.  `first` is the current
group's anchor event, `acc` the later members collected so far (reversed).
An event whose onset lies within `w` of the anchor's onset joins the group;
otherwise it closes the group and starts a new one anchored at itself. -/
def sweepAux (w : ℚ) (first : NoteEvent) (acc : List NoteEvent) :
    List NoteEvent → List (NoteEvent × List NoteEvent)
  | [] => [(first, acc.reverse)]
  | e :: rest =>
    if e.onset - first.onset ≤ w then sweepAux w first (e :: acc) rest
    else (first, acc.reverse) :: sweepAux w e [] rest

/-- Modelled from the spec: groups of a sorted event list; each group is its
anchor event paired with the later members in order. -/
def sweepGroups (w : ℚ) : List NoteEvent → List (NoteEvent × List NoteEvent)
  | [] => []
  | e :: rest => sweepAux w e [] rest

/-- Modelled from the spec: §4.2 "within one group, collapse duplicate
pitches"; keeps the first event of each pitch. -/
def dedupPitchAux (seen : List Int) : List NoteEvent → List NoteEvent
  | [] => []
  | e :: rest =>
    if e.pitch ∈ seen then dedupPitchAux seen rest
    else e :: dedupPitchAux (e.pitch :: seen) rest

/-- Modelled from the spec: a Chord (spec §3), a representative time and the
simultaneously sounding note events (duplicate pitches collapsed). -/
structure Chord where
  time : ℚ
  notes : List NoteEvent
deriving Repr, DecidableEq

/-- Modelled from the spec: builds the Chord of one sweep group; its time is
the anchor's onset. -/
def mkChord (g : NoteEvent × List NoteEvent) : Chord :=
  ⟨g.1.onset, dedupPitchAux [] (g.1 :: g.2)⟩

/-- Modelled from the spec: the Chord Grouper (spec §4.2), sort then sweep
then per-group pitch dedup. -/
def groupChords (w : ℚ) (evs : List NoteEvent) : List Chord :=
  (sweepGroups w (sortEvents evs)).map mkChord

/-- Modelled from the spec: the Tuning Model's open pitch of a string index
(spec §4.1); the table itself is `stringTuning` from TabPreview.js. -/
def openPitchAt (s : Nat) : Int := stringTuning.getD s 0

/-- Modelled from the spec: `fretsFor(pitch, string)` (spec §4.1), the
inverse lookup; `none` when the pitch is below the open string or more than
24 frets above it (FretRange of §3). -/
def fretFor (openPitch pitch : Int) : Option Int :=
  let f := pitch - openPitch
  if 0 ≤ f ∧ f ≤ 24 then some f else none

/-- Modelled from the spec: a Candidate `{pitch, string, fret}` (spec §3). -/
structure Cand where
  pitch : Int
  string : Nat
  fret : Int
deriving Repr, DecidableEq

/-- Modelled from the spec: candidate generation across all 6 strings
(spec §4.3 step 1), in ascending string order. -/
def candidatesFor (p : Int) : List Cand :=
  (List.range 6).filterMap
    (fun s => (fretFor (openPitchAt s) p).map (fun f => ⟨p, s, f⟩))

/-- Modelled from the spec: a pitch is feasible when it has at least one
candidate (spec §4.3 step 2). -/
def feasiblePitch (p : Int) : Bool := !(candidatesFor p).isEmpty

/-- Modelled from the spec: drop priority (spec §4.3), "lowest velocity
first, then lowest pitch". -/
def priorityLt (a b : NoteEvent) : Bool :=
  decide (a.velocity < b.velocity) ||
    (decide (a.velocity = b.velocity) && decide (a.pitch < b.pitch))

/-- Modelled from the spec: the lowest-priority note among `a` and `rest`
(leftmost on full ties). -/
def minPriorityNote (a : NoteEvent) : List NoteEvent → NoteEvent
  | [] => a
  | x :: rest => minPriorityNote (if priorityLt x a then x else a) rest

/-- Removes the first occurrence of a note from a list. -/
def eraseNote (m : NoteEvent) : List NoteEvent → List NoteEvent
  | [] => []
  | x :: rest => if x = m then rest else x :: eraseNote m rest

/-- Modelled from the spec: §4.3 step 2, "drop the lowest-priority note(s)
one at a time ... until the remainder is feasible, recording how many notes
were dropped".  Fuel-indexed; `dropNotes` supplies fuel equal to the list
length, which never runs out. -/
def dropUntilFeasible : Nat → List NoteEvent → List NoteEvent × Nat
  | _, [] => ([], 0)
  | 0, ns => (ns, 0)
  | fuel + 1, n :: ns =>
    if (n :: ns).all (fun x => feasiblePitch x.pitch) then (n :: ns, 0)
    else
      let m := minPriorityNote n ns
      let r := dropUntilFeasible fuel (eraseNote m (n :: ns))
      (r.1, r.2 + 1)

/-- Modelled from the spec: the Solver's drop-and-continue recovery
(spec §4.3 and §7); returns the feasible remainder and the diagnostic
dropped-note count. -/
def dropNotes (ns : List NoteEvent) : List NoteEvent × Nat :=
  dropUntilFeasible ns.length ns

/-- Modelled from the spec: exhaustive enumeration of complete assignments
(spec §4.3 step 3) under the one-note-per-string constraint; `used` lists
the string indices already taken.  Strings are tried in ascending index
order, so the enumeration is lexicographic in the assigned string
indices. -/
def enumAssign : List Int → List Nat → List (List Cand)
  | [], _ => [[]]
  | p :: ps, used =>
    ((candidatesFor p).filter (fun c => !used.contains c.string)).flatMap
      (fun c => (enumAssign ps (c.string :: used)).map (fun a => c :: a))

/-- Modelled from the spec: minimum-cost selection with the deterministic
tie-break of §4.3 — the fold replaces the current best only on strictly
smaller cost, so the first minimum in enumeration order wins. -/
def pickMin (cost : List Cand → ℚ) : List (List Cand) → Option (List Cand)
  | [] => none
  | a :: rest =>
    some (rest.foldl (fun best x => if cost x < cost best then x else best) a)

/-- Modelled from the spec: the configuration surface of §6 — cost weights
α, β, γ, the maximum physical stretch, and the heavy penalty weight applied
beyond it. -/
structure SolverCfg where
  alpha : ℚ
  beta : ℚ
  gamma : ℚ
  stretch : ℚ
  heavy : ℚ
deriving Repr, DecidableEq

/-- Modelled from the spec: declared defaults — stretch 4 (spec §4.3), and
weights favouring small movement over small span (spec §4.3). -/
def defaultCfg : SolverCfg := ⟨1, 2, 1/2, 4, 10⟩

/-- Modelled from the spec: the used, non-open frets of an assignment. -/
def nonOpenFrets (a : List Cand) : List Int :=
  (a.map Cand.fret).filter (fun f => 0 < f)

/-- Modelled from the spec: `fretSpan` (spec §4.3), the difference between
the maximum and minimum non-open fret used; 0 when no fretted note. -/
def fretSpan (a : List Cand) : ℚ :=
  match nonOpenFrets a with
  | [] => 0
  | f :: fs => ((fs.foldl max f - fs.foldl min f : Int) : ℚ)

/-- Modelled from the spec: `centerFret` (spec §4.3), the mean non-open fret
of the assignment; an all-open assignment leaves the hand where it was. -/
def centerFret (prev : ℚ) (a : List Cand) : ℚ :=
  match nonOpenFrets a with
  | [] => prev
  | f :: fs => (((f :: fs).foldl (· + ·) 0 : Int) : ℚ) / ((f :: fs).length : ℚ)

/-- Modelled from the spec: `stringPreferencePenalty` (spec §4.3), a unit
cost per note on an outermost string (index 0 or 5). -/
def stringPrefPenalty (a : List Cand) : ℚ :=
  ((a.filter (fun c => c.string == 0 || c.string == 5)).length : ℚ)

/-- Modelled from the spec: the playability cost of §4.3, including the
heavy penalty for spans exceeding the maximum stretch. -/
def costOf (cfg : SolverCfg) (prev : ℚ) (a : List Cand) : ℚ :=
  let span := fretSpan a
  cfg.alpha * span +
    (if cfg.stretch < span then cfg.heavy * (span - cfg.stretch) else 0) +
    cfg.beta * |centerFret prev a - prev| +
    cfg.gamma * stringPrefPenalty a

/-- Modelled from the spec: one chord's solving step (spec §4.3 step 3); an
empty assignment stands for a chord none of whose complete assignments
exists (the rejection case of §3). -/
def solveChord (cfg : SolverCfg) (prev : ℚ) (pitches : List Int) : List Cand :=
  (pickMin (costOf cfg prev) (enumAssign pitches [])).getD []

/-- Modelled from the spec: the Tab Sequence Builder's per-chord entry
(spec §4.4): a fixed array of 6 fret values, `-1` for unused strings. -/
def entryOf (t : ℚ) (a : List Cand) : TabEntry :=
  ⟨t, (List.range 6).map (fun s =>
    match a.find? (fun c => c.string == s) with
    | some c => c.fret
    | none => -1)⟩

/-- Modelled from the spec: the sequential solve of §4.3/§4.4 — drop
infeasible notes, pick the best assignment, thread the hand position, build
the entries and total the diagnostic drop counts. -/
def processChords (cfg : SolverCfg) (prev : ℚ) : List Chord → List TabEntry × Nat
  | [] => ([], 0)
  | c :: rest =>
    let dropped := dropNotes c.notes
    let a := solveChord cfg prev (dropped.1.map NoteEvent.pitch)
    let next := processChords cfg (centerFret prev a) rest
    (entryOf c.time a :: next.1, dropped.2 + next.2)

/-- Modelled from the spec: the full core, NoteEvents to TabSequence plus
the total dropped-note diagnostic count; the initial hand position is the
nut (center fret 0). -/
def midiToTab (cfg : SolverCfg) (w : ℚ) (evs : List NoteEvent) :
    List TabEntry × Nat :=
  processChords cfg 0 (groupChords w evs)

/-- The string indices an assignment uses, in note order. -/
def stringsOf (a : List Cand) : List Nat := a.map Cand.string

section Theorems

attribute [local semireducible] Rat.add Rat.sub Rat.mul Rat.inv

set_option maxRecDepth 100000

/-- C3: the Standard tuning has exactly 6 strings, its open-pitch table
indexed 0..5 is [64, 59, 55, 50, 45, 40] (E B G D A E), and pitches are
strictly increasing from index 5 (low E, 40) to index 0 (high e, 64);
immutability holds by construction, the source binds it as a local `const`
that is never reassigned. -/
theorem standard_tuning_invariant :
    stringTuning.length = 6 ∧
    stringTuning = [64, 59, 55, 50, 45, 40] ∧
    List.Pairwise (fun hi lo => lo < hi) stringTuning ∧
    stringTuning.getD 5 0 = 40 ∧ stringTuning.getD 0 0 = 64 := by
  refine ⟨rfl, rfl, ?_, rfl, rfl⟩
  decide

/-- C10: the MIDI preview's note data is a constant function of `fileId`:
any two fileId values yield the same payload, namely the four notes with
pitches 60, 64, 67, 72 ending at 2.0 seconds, with duration 2.0. -/
theorem midi_preview_constant_in_fileId (fid1 fid2 : String) :
    midiDataFor fid1 = midiDataFor fid2 ∧
    durationFor fid1 = durationFor fid2 ∧
    (midiDataFor fid1).notes =
      [ ⟨60, 0, 1/2, 80⟩, ⟨64, 1/2, 1, 75⟩, ⟨67, 1, 3/2, 85⟩, ⟨72, 3/2, 2, 90⟩ ] ∧
    (midiDataFor fid1).notes.map MidiNote.pitch = [60, 64, 67, 72] ∧
    durationFor fid1 = 2 :=
  ⟨rfl, rfl, rfl, rfl, rfl⟩

/-- C2: empty input is not an error: the core maps it to an empty
TabSequence with a zero drop count, and every aggregate statistic of the
empty tab is zero, with no fret range. -/
theorem empty_input_yields_empty_output (cfg : SolverCfg) (w : ℚ) :
    midiToTab cfg w [] = ([], 0) ∧
    getTabStats [] = ⟨0, 0, 0, none⟩ :=
  ⟨rfl, rfl⟩

/-- A rejected file always carries an error message. -/
theorem validateFile_invalid_has_error (g : JsFile)
    (h : (validateFile g).valid = false) : (validateFile g).error ≠ none := by
  unfold validateFile at *
  by_cases h1 : ¬ (supportedTypes.contains g.type) ∧ ¬ (matchesAudioExt g.name = true)
  · rw [if_pos h1]; simp
  · rw [if_neg h1] at *
    by_cases h2 : maxSize < g.size
    · rw [if_pos h2]; simp
    · rw [if_neg h2] at h ⊢
      simp at h

/-- Acceptance in terms of the source's own checks. -/
theorem validateFile_valid_iff (f : JsFile) :
    (validateFile f).valid = true ↔
      ((supportedTypes.contains f.type = true ∨ matchesAudioExt f.name = true) ∧
        ¬ (maxSize < f.size)) := by
  unfold validateFile
  by_cases h1 : ¬ (supportedTypes.contains f.type) ∧ ¬ (matchesAudioExt f.name = true)
  · rw [if_pos h1]
    obtain ⟨hA, hB⟩ := h1
    constructor
    · intro h; simp at h
    · rintro ⟨hor | hor, -⟩
      · exact absurd hor hA
      · exact absurd hor hB
  · rw [if_neg h1]
    by_cases h2 : maxSize < f.size
    · rw [if_pos h2]
      constructor
      · intro h; simp at h
      · rintro ⟨-, hsz⟩; exact absurd h2 hsz
    · rw [if_neg h2]
      constructor
      · intro _
        refine ⟨?_, h2⟩
        rcases not_and_or.mp h1 with h | h
        · exact Or.inl (not_not.mp h)
        · exact Or.inr (not_not.mp h)
      · intro _; rfl

/-- C9: the upload validator accepts a file iff its MIME type is one of the
four supported audio types or its name ends (case-insensitively) in .mp3,
.wav or .flac, and its size is at most 50MiB; the 50MiB boundary is
accepted; in a batch, exactly the valid files are uploaded while a rejected
file is marked "error" and carries an error message. -/
theorem upload_validator_spec (f : JsFile) (files : List JsFile) (g : JsFile)
    (hg : g ∈ files) (hbad : (validateFile g).valid = false) :
    ((validateFile f).valid = true ↔
      ((f.type = "audio/mpeg" ∨ f.type = "audio/wav" ∨ f.type = "audio/flac" ∨
          f.type = "audio/x-flac" ∨
          f.name.toLower.endsWith ".mp3" = true ∨
          f.name.toLower.endsWith ".wav" = true ∨
          f.name.toLower.endsWith ".flac" = true) ∧
        f.size ≤ 50 * 1024 * 1024)) ∧
    (onDropPlan files).2 = files.filter (fun x => (validateFile x).valid) ∧
    (onDropPlan files).1 = files.map statusFor ∧
    (statusFor g).status = "error" ∧
    (statusFor g).error ≠ none ∧
    (validateFile ⟨"track.mp3", "audio/mpeg", 50 * 1024 * 1024⟩).valid = true := by
  refine ⟨?_, ?_, ?_, ?_, validateFile_invalid_has_error g hbad, by decide⟩
  · rw [validateFile_valid_iff f]
    have h1 : (supportedTypes.contains f.type = true) ↔
        (f.type = "audio/mpeg" ∨ f.type = "audio/wav" ∨ f.type = "audio/flac" ∨
          f.type = "audio/x-flac") := by
      simp [supportedTypes]
    have h2 : (matchesAudioExt f.name = true) ↔
        (f.name.toLower.endsWith ".mp3" = true ∨
          f.name.toLower.endsWith ".wav" = true ∨
          f.name.toLower.endsWith ".flac" = true) := by
      simp only [matchesAudioExt, Bool.or_eq_true]
      exact or_assoc
    have h3 : (¬ (maxSize < f.size)) ↔ f.size ≤ 50 * 1024 * 1024 := by
      unfold maxSize; omega
    rw [h1, h2, h3]
    simp only [or_assoc]
  · unfold onDropPlan
    simp [List.filter_map, Function.comp_def]
  · unfold onDropPlan
    simp
  · unfold statusFor
    simp [hbad]

/-- Witness for the upload-validator claim: a concrete oversized file in a
concrete batch is rejected with an error message. -/
theorem upload_validator_spec_witness :
    (validateFile ⟨"a.wav", "audio/wav", 52428801⟩).valid = false ∧
    (statusFor ⟨"a.wav", "audio/wav", 52428801⟩).status = "error" ∧
    (statusFor ⟨"a.wav", "audio/wav", 52428801⟩).error ≠ none :=
  ⟨by decide,
    (upload_validator_spec ⟨"b.mp3", "audio/mpeg", 7⟩
      [⟨"a.wav", "audio/wav", 52428801⟩] ⟨"a.wav", "audio/wav", 52428801⟩
      (by decide) (by decide)).2.2.2.1,
    (upload_validator_spec ⟨"b.mp3", "audio/mpeg", 7⟩
      [⟨"a.wav", "audio/wav", 52428801⟩] ⟨"a.wav", "audio/wav", 52428801⟩
      (by decide) (by decide)).2.2.2.2.1⟩

/-- The lowest-priority note returned by the fold is one of the inputs. -/
theorem minPriorityNote_mem (a : NoteEvent) (l : List NoteEvent) :
    minPriorityNote a l ∈ a :: l := by
  induction l generalizing a with
  | nil => simp [minPriorityNote]
  | cons x rest ih =>
    simp only [minPriorityNote, List.mem_cons]
    by_cases hx : priorityLt x a = true
    · rw [if_pos hx]
      rcases (List.mem_cons).1 (ih x) with h | h
      · exact Or.inr (Or.inl h)
      · exact Or.inr (Or.inr h)
    · rw [if_neg hx]
      rcases (List.mem_cons).1 (ih a) with h | h
      · exact Or.inl h
      · exact Or.inr (Or.inr h)

/-- Erasing a present note shortens the list by one. -/
theorem eraseNote_length (m : NoteEvent) (l : List NoteEvent) (h : m ∈ l) :
    (eraseNote m l).length + 1 = l.length := by
  induction l with
  | nil => cases h
  | cons x rest ih =>
    by_cases hx : x = m
    · simp [eraseNote, hx]
    · rcases (List.mem_cons).1 h with h' | h'
      · exact absurd h'.symm hx
      · simp [eraseNote, hx, ih h']

/-- Erasing a note yields a sublist. -/
theorem eraseNote_sublist (m : NoteEvent) (l : List NoteEvent) :
    List.Sublist (eraseNote m l) l := by
  induction l with
  | nil => simp [eraseNote]
  | cons x rest ih =>
    by_cases hx : x = m
    · simp [eraseNote, hx]
    · simpa [eraseNote, hx] using ih.cons₂ x

/-- With fuel at least the list length, the drop loop ends on an
all-feasible remainder that is a sublist of the input, counting exactly the
dropped notes. -/
theorem dropUntilFeasible_main (fuel : Nat) (ns : List NoteEvent)
    (h : ns.length ≤ fuel) :
    ((dropUntilFeasible fuel ns).1.all (fun x => feasiblePitch x.pitch)) = true ∧
    List.Sublist (dropUntilFeasible fuel ns).1 ns ∧
    (dropUntilFeasible fuel ns).2 =
      ns.length - (dropUntilFeasible fuel ns).1.length := by
  induction fuel generalizing ns with
  | zero =>
    have : ns = [] := List.length_eq_zero.1 (Nat.le_zero.1 h)
    subst this
    exact ⟨rfl, List.Sublist.refl _, rfl⟩
  | succ fuel ih =>
    match ns with
    | [] => exact ⟨rfl, List.Sublist.refl _, rfl⟩
    | n :: ns' =>
      by_cases hall : ((n :: ns').all (fun x => feasiblePitch x.pitch)) = true
      · have heq : dropUntilFeasible (fuel + 1) (n :: ns') = (n :: ns', 0) := by
          simp [dropUntilFeasible, hall]
        rw [heq]
        exact ⟨hall, List.Sublist.refl _, by simp⟩
      · have heq : dropUntilFeasible (fuel + 1) (n :: ns') =
            ((dropUntilFeasible fuel (eraseNote (minPriorityNote n ns') (n :: ns'))).1,
              (dropUntilFeasible fuel (eraseNote (minPriorityNote n ns') (n :: ns'))).2 + 1) := by
          simp [dropUntilFeasible, hall]
        have hm : minPriorityNote n ns' ∈ n :: ns' := minPriorityNote_mem n ns'
        have hlen : (eraseNote (minPriorityNote n ns') (n :: ns')).length + 1 =
            (n :: ns').length := eraseNote_length _ _ hm
        have hfuel : (eraseNote (minPriorityNote n ns') (n :: ns')).length ≤ fuel := by
          simp only [List.length_cons] at h hlen
          omega
        obtain ⟨ha, hs, hc⟩ := ih (eraseNote (minPriorityNote n ns') (n :: ns')) hfuel
        rw [heq]
        refine ⟨ha, hs.trans (eraseNote_sublist _ _), ?_⟩
        have hsl := hs.length_le
        simp only [List.length_cons] at hlen ⊢
        omega

/-- The builder emits one TabEntry per chord: no chord ever aborts the
piece. -/
theorem processChords_length (cfg : SolverCfg) (prev : ℚ) (cs : List Chord) :
    (processChords cfg prev cs).1.length = cs.length := by
  induction cs generalizing prev with
  | nil => rfl
  | cons c rest ih => simp [processChords, ih]

/-- C8: the Solver's recovery never aborts: for any note list, the drop
step is total, drops notes (lowest velocity, then lowest pitch, one at a
time) until every remaining pitch has a candidate, returns the remainder as
a sublist of the input, and reports the exact number of dropped notes; and
the pipeline still emits one entry per chord. -/
theorem drop_and_continue_policy (ns : List NoteEvent) (cfg : SolverCfg)
    (prev : ℚ) (cs : List Chord) :
    ((dropNotes ns).1.all (fun x => feasiblePitch x.pitch)) = true ∧
    List.Sublist (dropNotes ns).1 ns ∧
    (dropNotes ns).2 = ns.length - (dropNotes ns).1.length ∧
    (processChords cfg prev cs).1.length = cs.length := by
  obtain ⟨h1, h2, h3⟩ := dropUntilFeasible_main ns.length ns (Nat.le_refl _)
  exact ⟨h1, h2, h3, processChords_length cfg prev cs⟩

/-- The strict-replacement fold behind `pickMin` returns either the initial
accumulator (then nothing beats it) or the first strictly better element. -/
theorem foldlMin_split (cost : List Cand → ℚ) (rest : List (List Cand)) :
    ∀ acc : List Cand,
      (rest.foldl (fun best x => if cost x < cost best then x else best) acc = acc ∧
        ∀ x ∈ rest, cost acc ≤ cost x) ∨
      (∃ l₁ l₂,
        rest = l₁ ++
          (rest.foldl (fun best x => if cost x < cost best then x else best) acc) :: l₂ ∧
        cost (rest.foldl (fun best x => if cost x < cost best then x else best) acc) <
          cost acc ∧
        (∀ x ∈ l₁,
          cost (rest.foldl (fun best x => if cost x < cost best then x else best) acc) <
            cost x) ∧
        (∀ x ∈ l₂,
          cost (rest.foldl (fun best x => if cost x < cost best then x else best) acc) ≤
            cost x)) := by
  induction rest with
  | nil => intro acc; exact Or.inl ⟨rfl, by simp⟩
  | cons x rest ih =>
    intro acc
    by_cases hx : cost x < cost acc
    · simp only [List.foldl_cons, if_pos hx]
      rcases ih x with ⟨heq, hle⟩ | ⟨l₁, l₂, hsplit, hlt, hbef, haft⟩
      · right
        exact ⟨[], rest, by simp [heq], by rw [heq]; exact hx, by simp, by simpa [heq] using hle⟩
      · right
        refine ⟨x :: l₁, l₂, ?_, hlt.trans hx, ?_, haft⟩
        · rw [List.cons_append]
          exact congrArg (List.cons x) hsplit
        · intro y hy
          rcases List.mem_cons.1 hy with rfl | hy
          · exact hlt
          · exact hbef y hy
    · simp only [List.foldl_cons, if_neg hx]
      rcases ih acc with ⟨heq, hle⟩ | ⟨l₁, l₂, hsplit, hlt, hbef, haft⟩
      · left
        refine ⟨heq, ?_⟩
        intro y hy
        rcases List.mem_cons.1 hy with rfl | hy
        · exact le_of_not_lt hx
        · exact hle y hy
      · right
        refine ⟨x :: l₁, l₂, ?_, hlt, ?_, haft⟩
        · rw [List.cons_append]
          exact congrArg (List.cons x) hsplit
        · intro y hy
          rcases List.mem_cons.1 hy with rfl | hy
          · exact hlt.trans_le (le_of_not_lt hx)
          · exact hbef y hy

/-- The selected assignment splits the candidate list into a strictly more
expensive prefix and a no-cheaper suffix: it is the first minimum. -/
theorem pickMin_split (cost : List Cand → ℚ) (l : List (List Cand))
    (a : List Cand) (h : pickMin cost l = some a) :
    ∃ l₁ l₂, l = l₁ ++ a :: l₂ ∧ (∀ x ∈ l₁, cost a < cost x) ∧
      ∀ x ∈ l₂, cost a ≤ cost x := by
  match l with
  | [] => cases h
  | a₀ :: rest =>
    have ha : a = rest.foldl (fun best x => if cost x < cost best then x else best) a₀ := by
      simpa [pickMin] using h.symm
    subst ha
    rcases foldlMin_split cost rest a₀ with ⟨heq, hle⟩ | ⟨l₁, l₂, hsplit, hlt, hbef, haft⟩
    · rw [heq]
      exact ⟨[], rest, rfl, by simp, hle⟩
    · refine ⟨a₀ :: l₁, l₂, ?_, ?_, haft⟩
      · rw [List.cons_append]
        exact congrArg (List.cons a₀) hsplit
      · intro y hy
        rcases List.mem_cons.1 hy with rfl | hy
        · exact hlt
        · exact hbef y hy

/-- Candidates for one pitch are listed in strictly increasing string
order. -/
theorem candidatesFor_pairwise (p : Int) :
    (candidatesFor p).Pairwise (fun c d => c.string < d.string) := by
  unfold candidatesFor
  rw [List.pairwise_filterMap]
  apply List.Pairwise.imp ?_ (List.pairwise_lt_range 6)
  intro s t hst c hc d hd
  rcases Option.map_eq_some'.1 hc with ⟨f1, _, rfl⟩
  rcases Option.map_eq_some'.1 hd with ⟨f2, _, rfl⟩
  exact hst

/-- Complete assignments are enumerated in strictly increasing
lexicographic order of their string-index lists. -/
theorem enumAssign_pairwise (ps : List Int) (used : List Nat) :
    (enumAssign ps used).Pairwise
      (fun a b => List.Lex (· < ·) (stringsOf a) (stringsOf b)) := by
  induction ps generalizing used with
  | nil => simp [enumAssign]
  | cons p ps ih =>
    unfold enumAssign
    rw [List.pairwise_flatMap]
    constructor
    · intro c _
      rw [List.pairwise_map]
      apply (ih (c.string :: used)).imp
      intro a b hab
      simpa [stringsOf] using List.Lex.cons hab
    · apply List.Pairwise.imp ?_
        (List.Pairwise.sublist (List.filter_sublist _) (candidatesFor_pairwise p))
      intro c d hcd x hx y hy
      rcases List.mem_map.1 hx with ⟨a, _, rfl⟩
      rcases List.mem_map.1 hy with ⟨b, _, rfl⟩
      simpa [stringsOf] using List.Lex.rel hcd

/-- C6: the core is a pure function, so identical input and configuration
give identical output; and whenever another complete assignment ties with
the selected one on cost, the selected one is lexicographically least in
string indices (strings ascending), the deterministic tie-break of the
spec. -/
theorem core_deterministic_lowest_string_tiebreak (cfg : SolverCfg) (w : ℚ)
    (evs : List NoteEvent) (cost : List Cand → ℚ) (ps : List Int)
    (a b : List Cand) (ha : pickMin cost (enumAssign ps []) = some a)
    (hb : b ∈ enumAssign ps []) (heq : cost b = cost a) :
    midiToTab cfg w evs = midiToTab cfg w evs ∧
    (a = b ∨ List.Lex (· < ·) (stringsOf a) (stringsOf b)) := by
  refine ⟨rfl, ?_⟩
  obtain ⟨l₁, l₂, hsplit, hbefore, _⟩ := pickMin_split cost _ a ha
  have hpw := enumAssign_pairwise ps []
  rw [hsplit] at hpw hb
  rcases List.mem_append.1 hb with hb1 | hb2
  · exact absurd (heq ▸ hbefore b hb1) (lt_irrefl _)
  · rcases List.mem_cons.1 hb2 with rfl | hb2
    · exact Or.inl rfl
    · right
      have hpw2 := (List.pairwise_append.1 hpw).2.1
      exact (List.pairwise_cons.1 hpw2).1 b hb2

/-- Witness for the determinism and tie-break claim at a concrete chord
with one reachable assignment. -/
theorem core_deterministic_lowest_string_tiebreak_witness :
    midiToTab defaultCfg 1 [] = midiToTab defaultCfg 1 [] ∧
    (([⟨85, 0, 21⟩] : List Cand) = [⟨85, 0, 21⟩] ∨
      List.Lex (· < ·) (stringsOf [⟨85, 0, 21⟩]) (stringsOf [⟨85, 0, 21⟩])) :=
  core_deterministic_lowest_string_tiebreak defaultCfg 1 []
    (costOf defaultCfg 0) [85] [⟨85, 0, 21⟩] [⟨85, 0, 21⟩]
    (by decide) (by decide) rfl

/-- Every sweep group's anchor and members come from the anchor seed, the
accumulator, or the remaining input. -/
theorem sweepAux_sources (w : ℚ) (l : List NoteEvent) :
    ∀ (first : NoteEvent) (acc : List NoteEvent),
      ∀ g ∈ sweepAux w first acc l,
        (g.1 = first ∨ g.1 ∈ l) ∧ ∀ x ∈ g.2, x ∈ acc ∨ x ∈ l := by
  induction l with
  | nil =>
    intro first acc g hg
    simp only [sweepAux, List.mem_singleton] at hg
    subst hg
    exact ⟨Or.inl rfl, fun x hx => Or.inl (List.mem_reverse.1 hx)⟩
  | cons e rest ih =>
    intro first acc g hg
    simp only [sweepAux] at hg
    by_cases hj : e.onset - first.onset ≤ w
    · rw [if_pos hj] at hg
      obtain ⟨h1, h2⟩ := ih first (e :: acc) g hg
      refine ⟨?_, ?_⟩
      · rcases h1 with h | h
        · exact Or.inl h
        · exact Or.inr (List.mem_cons_of_mem e h)
      · intro x hx
        rcases h2 x hx with h | h
        · rcases List.mem_cons.1 h with rfl | h
          · exact Or.inr (List.mem_cons_self x rest)
          · exact Or.inl h
        · exact Or.inr (List.mem_cons_of_mem e h)
    · rw [if_neg hj] at hg
      rcases List.mem_cons.1 hg with rfl | hg
      · exact ⟨Or.inl rfl, fun x hx => Or.inl (List.mem_reverse.1 hx)⟩
      · obtain ⟨h1, h2⟩ := ih e [] g hg
        refine ⟨?_, ?_⟩
        · rcases h1 with h | h
          · exact Or.inr (h ▸ List.mem_cons_self e rest)
          · exact Or.inr (List.mem_cons_of_mem e h)
        · intro x hx
          rcases h2 x hx with h | h
          · cases h
          · exact Or.inr (List.mem_cons_of_mem e h)

/-- On onset-sorted input, every member of a sweep group lies within the
window after the group's anchor. -/
theorem sweepAux_window (w : ℚ) (l : List NoteEvent) :
    ∀ (first : NoteEvent) (acc : List NoteEvent),
      List.Pairwise (fun a b => a.onset ≤ b.onset) l →
      (∀ x ∈ l, first.onset ≤ x.onset) →
      (∀ x ∈ acc, first.onset ≤ x.onset ∧ x.onset - first.onset ≤ w) →
      ∀ g ∈ sweepAux w first acc l,
        ∀ x ∈ g.2, g.1.onset ≤ x.onset ∧ x.onset - g.1.onset ≤ w := by
  induction l with
  | nil =>
    intro first acc _ _ hacc g hg x hx
    simp only [sweepAux, List.mem_singleton] at hg
    subst hg
    exact hacc x (List.mem_reverse.1 hx)
  | cons e rest ih =>
    intro first acc hsort hfirst hacc g hg
    obtain ⟨he, hrest⟩ := List.pairwise_cons.1 hsort
    simp only [sweepAux] at hg
    by_cases hj : e.onset - first.onset ≤ w
    · rw [if_pos hj] at hg
      refine ih first (e :: acc) hrest
        (fun x hx => hfirst x (List.mem_cons_of_mem e hx)) ?_ g hg
      intro x hx
      rcases List.mem_cons.1 hx with rfl | hx
      · exact ⟨hfirst x (List.mem_cons_self x rest), hj⟩
      · exact hacc x hx
    · rw [if_neg hj] at hg
      rcases List.mem_cons.1 hg with rfl | hg
      · intro x hx
        exact hacc x (List.mem_reverse.1 hx)
      · refine ih e [] hrest he (by simp) g hg

/-- On onset-sorted input, consecutive sweep groups have anchors more than
a window apart (pairwise, hence for the whole group list). -/
theorem sweepAux_gap (w : ℚ) (l : List NoteEvent) :
    ∀ (first : NoteEvent) (acc : List NoteEvent),
      List.Pairwise (fun a b => a.onset ≤ b.onset) l →
      (∀ x ∈ l, first.onset ≤ x.onset) →
      List.Pairwise (fun g g' => g.1.onset + w < g'.1.onset)
        (sweepAux w first acc l) := by
  induction l with
  | nil =>
    intro first acc _ _
    simp [sweepAux]
  | cons e rest ih =>
    intro first acc hsort hfirst
    obtain ⟨he, hrest⟩ := List.pairwise_cons.1 hsort
    simp only [sweepAux]
    by_cases hj : e.onset - first.onset ≤ w
    · rw [if_pos hj]
      exact ih first (e :: acc) hrest
        (fun x hx => hfirst x (List.mem_cons_of_mem e hx))
    · rw [if_neg hj]
      refine List.pairwise_cons.2 ⟨?_, ih e [] hrest he⟩
      intro g' hg'
      have hanchor : g'.1 = e ∨ g'.1 ∈ rest := (sweepAux_sources w rest e [] g' hg').1
      have hge : e.onset ≤ g'.1.onset := by
        rcases hanchor with h | h
        · rw [h]
        · exact he _ h
      have : w < e.onset - first.onset := lt_of_not_le hj
      linarith

/-- Pitch dedup keeps pitches out of `seen` and makes them distinct. -/
theorem dedupPitchAux_nodup (l : List NoteEvent) :
    ∀ seen : List Int,
      ((dedupPitchAux seen l).map NoteEvent.pitch).Nodup ∧
      ∀ p ∈ (dedupPitchAux seen l).map NoteEvent.pitch, p ∉ seen := by
  induction l with
  | nil => intro seen; simp [dedupPitchAux]
  | cons e rest ih =>
    intro seen
    by_cases hs : e.pitch ∈ seen
    · simpa [dedupPitchAux, hs] using ih seen
    · simp only [dedupPitchAux, if_neg hs, List.map_cons]
      obtain ⟨hnd, hout⟩ := ih (e.pitch :: seen)
      refine ⟨List.nodup_cons.2 ⟨?_, hnd⟩, ?_⟩
      · intro hmem
        exact (hout _ hmem) (List.mem_cons_self _ _)
      · intro p hp
        rcases List.mem_cons.1 hp with rfl | hp
        · exact hs
        · exact fun hcon => (hout p hp) (List.mem_cons_of_mem _ hcon)

/-- Pitch dedup returns a sublist of its input. -/
theorem dedupPitchAux_sublist (l : List NoteEvent) :
    ∀ seen : List Int, List.Sublist (dedupPitchAux seen l) l := by
  induction l with
  | nil => intro seen; simp [dedupPitchAux]
  | cons e rest ih =>
    intro seen
    by_cases hs : e.pitch ∈ seen
    · simp only [dedupPitchAux, if_pos hs]
      exact (ih seen).trans (List.sublist_cons_self e rest)
    · simp only [dedupPitchAux, if_neg hs]
      exact (ih (e.pitch :: seen)).cons₂ e

/-- Dedup of a cons with nothing seen keeps the head. -/
theorem dedupPitchAux_cons (x : NoteEvent) (xs : List NoteEvent) :
    dedupPitchAux [] (x :: xs) = x :: dedupPitchAux [x.pitch] xs := by
  simp [dedupPitchAux]

/-- C7: the Chord Grouper sorts by onset with pitch tie-break, then sweeps
with the anchor rule: the produced chord list has anchors more than a
window apart, and every chord is nonempty, is anchored at its first event's
onset, contains only events within the window of the anchor with duplicate
pitches collapsed, and draws all its events from the input. -/
theorem chord_grouper_spec (w : ℚ) (evs : List NoteEvent) (hw : 0 ≤ w) :
    List.Sorted eventLe (sortEvents evs) ∧
    List.Perm (sortEvents evs) evs ∧
    List.Pairwise (fun c c' => c.time + w < c'.time) (groupChords w evs) ∧
    ∀ c ∈ groupChords w evs,
      c.notes ≠ [] ∧
      (∀ n, c.notes.head? = some n → n.onset = c.time) ∧
      (∀ n ∈ c.notes, c.time ≤ n.onset ∧ n.onset - c.time ≤ w) ∧
      (c.notes.map NoteEvent.pitch).Nodup ∧
      (∀ n ∈ c.notes, n ∈ evs) := by
  have hsorted : List.Sorted eventLe (sortEvents evs) :=
    List.sorted_insertionSort eventLe evs
  have hperm : List.Perm (sortEvents evs) evs :=
    List.perm_insertionSort eventLe evs
  have honset : List.Pairwise (fun a b => a.onset ≤ b.onset) (sortEvents evs) := by
    refine hsorted.imp ?_
    intro a b hab
    rcases hab with h | ⟨h, _⟩
    · exact le_of_lt h
    · exact le_of_eq h
  refine ⟨hsorted, hperm, ?_, ?_⟩
  · unfold groupChords
    rw [List.pairwise_map]
    cases hev : sortEvents evs with
    | nil => simp [sweepGroups]
    | cons e rest =>
      rw [hev] at honset
      simp only [sweepGroups]
      obtain ⟨he, hrest⟩ := List.pairwise_cons.1 honset
      exact sweepAux_gap w rest e [] hrest he
  · intro c hc
    unfold groupChords at hc
    rcases List.mem_map.1 hc with ⟨g, hg, rfl⟩
    cases hev : sortEvents evs with
    | nil =>
      rw [hev] at hg
      simp [sweepGroups] at hg
    | cons e rest =>
      rw [hev] at hg honset
      simp only [sweepGroups] at hg
      obtain ⟨he, hrest⟩ := List.pairwise_cons.1 honset
      have hsrc := sweepAux_sources w rest e [] g hg
      have hmem_sorted : ∀ x, x ∈ g.1 :: g.2 → x ∈ sortEvents evs := by
        intro x hx
        rw [hev]
        rcases List.mem_cons.1 hx with rfl | hx
        · rcases hsrc.1 with h | h
          · exact h ▸ List.mem_cons_self e rest
          · exact List.mem_cons_of_mem e h
        · rcases hsrc.2 x hx with h | h
          · cases h
          · exact List.mem_cons_of_mem e h
      have hwindow : ∀ x ∈ g.2, g.1.onset ≤ x.onset ∧ x.onset - g.1.onset ≤ w :=
        sweepAux_window w rest e [] hrest he (by simp) g hg
      have hsub : List.Sublist (mkChord g).notes (g.1 :: g.2) :=
        dedupPitchAux_sublist _ []
      refine ⟨?_, ?_, ?_, ?_, ?_⟩
      · show dedupPitchAux [] (g.1 :: g.2) ≠ []
        rw [dedupPitchAux_cons]
        exact List.cons_ne_nil _ _
      · intro n hn
        show n.onset = g.1.onset
        have heads : (mkChord g).notes = g.1 :: dedupPitchAux [g.1.pitch] g.2 :=
          dedupPitchAux_cons g.1 g.2
        rw [heads] at hn
        simp only [List.head?_cons, Option.some_inj] at hn
        rw [← hn]
      · intro n hn
        have hn' : n ∈ g.1 :: g.2 := hsub.mem hn
        rcases List.mem_cons.1 hn' with rfl | hn'
        · refine ⟨le_refl _, ?_⟩
          show g.1.onset - g.1.onset ≤ w
          rw [sub_self]
          exact hw
        · exact hwindow n hn'
      · exact (dedupPitchAux_nodup _ []).1
      · intro n hn
        exact hperm.mem_iff.1 (hmem_sorted n (hsub.mem hn))

/-- Witness for the chord-grouper claim on a concrete two-group input. -/
theorem chord_grouper_spec_witness :
    (0 : ℚ) ≤ 1 ∧
    List.Pairwise (fun c c' => c.time + 1 < c'.time)
      (groupChords 1 [⟨60, 0, 1, 80⟩, ⟨64, 3, 4, 70⟩]) :=
  ⟨by decide,
    (chord_grouper_spec 1 [⟨60, 0, 1, 80⟩, ⟨64, 3, 4, 70⟩] (by decide)).2.2.1⟩

/-- The nested per-chord per-slot fold equals one flat fold over all
tagged slots. -/
theorem foldl_allSlots {β : Type} (g : β → (Nat × Int) → β)
    (tabData : List TabEntry) :
    ∀ init : β,
      tabData.foldl (fun st chord => chord.strings.enum.foldl g st) init =
        (allSlots tabData).foldl g init := by
  induction tabData with
  | nil => intro init; rfl
  | cons ch rest ih =>
    intro init
    simp only [List.foldl_cons, allSlots, List.flatMap_cons, List.foldl_append]
    exact ih _

/-- First component of the stats scan: the used-string set accumulates the
indices of played slots. -/
theorem statsScan_fst (ps : List (Nat × Int)) :
    ∀ (u : Finset Nat) (r : Option (Int × Int)),
      (ps.foldl statsStep (u, r)).1 =
        u ∪ ((ps.filter (fun p => 0 ≤ p.2)).map Prod.fst).toFinset := by
  induction ps with
  | nil => intro u r; simp
  | cons p ps ih =>
    intro u r
    by_cases hp : 0 ≤ p.2
    · simp only [List.foldl_cons, statsStep, if_pos hp]
      rw [ih]
      rw [List.filter_cons_of_pos (by simpa using hp)]
      ext s
      simp only [Finset.mem_union, Finset.mem_insert, List.mem_toFinset,
        List.map_cons, List.mem_cons]
      tauto
    · simp only [List.foldl_cons, statsStep, if_neg hp]
      rw [ih]
      rw [List.filter_cons_of_neg (by simpa using hp)]

/-- Second component of the stats scan: the fret accumulator folds over the
played fret values in order. -/
theorem statsScan_snd (ps : List (Nat × Int)) :
    ∀ (u : Finset Nat) (r : Option (Int × Int)),
      (ps.foldl statsStep (u, r)).2 =
        ((ps.filter (fun p => 0 ≤ p.2)).map Prod.snd).foldl fretRangeStep r := by
  induction ps with
  | nil => intro u r; rfl
  | cons p ps ih =>
    intro u r
    by_cases hp : 0 ≤ p.2
    · simp only [List.foldl_cons, statsStep, if_pos hp]
      rw [ih]
      rw [List.filter_cons_of_pos (by simpa using hp)]
      rfl
    · simp only [List.foldl_cons, statsStep, if_neg hp]
      rw [ih]
      rw [List.filter_cons_of_neg (by simpa using hp)]

/-- Once seeded, the fret accumulator computes the running minimum and
maximum. -/
theorem fretRangeFold_some (fs : List Int) :
    ∀ a b : Int, fs.foldl fretRangeStep (some (a, b)) =
      some (fs.foldl min a, fs.foldl max b) := by
  induction fs with
  | nil => intro a b; rfl
  | cons f fs ih =>
    intro a b
    simp only [List.foldl_cons, fretRangeStep]
    exact ih (min a f) (max b f)

/-- A left fold of `min` over a list lands on the seed or a member, is at
most the seed, and bounds every member from below. -/
theorem foldl_min_spec (fs : List Int) :
    ∀ a : Int,
      (fs.foldl min a = a ∨ fs.foldl min a ∈ fs) ∧
      fs.foldl min a ≤ a ∧ ∀ x ∈ fs, fs.foldl min a ≤ x := by
  induction fs with
  | nil => intro a; exact ⟨Or.inl rfl, le_refl _, by simp⟩
  | cons f fs ih =>
    intro a
    simp only [List.foldl_cons]
    obtain ⟨hmem, hle, hall⟩ := ih (min a f)
    refine ⟨?_, hle.trans (min_le_left a f), ?_⟩
    · rcases hmem with h | h
      · rcases min_choice a f with hc | hc
        · exact Or.inl (by rw [h, hc])
        · exact Or.inr (List.mem_cons.2 (Or.inl (by rw [h, hc])))
      · exact Or.inr (List.mem_cons_of_mem f h)
    · intro x hx
      rcases List.mem_cons.1 hx with rfl | hx
      · exact hle.trans (min_le_right _ _)
      · exact hall x hx

/-- A left fold of `max` over a list lands on the seed or a member, is at
least the seed, and bounds every member from above. -/
theorem foldl_max_spec (fs : List Int) :
    ∀ a : Int,
      (fs.foldl max a = a ∨ fs.foldl max a ∈ fs) ∧
      a ≤ fs.foldl max a ∧ ∀ x ∈ fs, x ≤ fs.foldl max a := by
  induction fs with
  | nil => intro a; exact ⟨Or.inl rfl, le_refl _, by simp⟩
  | cons f fs ih =>
    intro a
    simp only [List.foldl_cons]
    obtain ⟨hmem, hle, hall⟩ := ih (max a f)
    refine ⟨?_, (le_max_left a f).trans hle, ?_⟩
    · rcases hmem with h | h
      · rcases max_choice a f with hc | hc
        · exact Or.inl (by rw [h, hc])
        · exact Or.inr (List.mem_cons.2 (Or.inl (by rw [h, hc])))
      · exact Or.inr (List.mem_cons_of_mem f h)
    · intro x hx
      rcases List.mem_cons.1 hx with rfl | hx
      · exact (le_max_right _ _).trans hle
      · exact hall x hx

/-- Filtering the tagged slots of one string array on played frets and
dropping the tags is the same as filtering the frets directly. -/
theorem enumFrom_filter_snd (l : List Int) :
    ∀ n : Nat, ((List.enumFrom n l).filter (fun p => 0 ≤ p.2)).map Prod.snd =
      l.filter (fun f => 0 ≤ f) := by
  induction l with
  | nil => intro n; rfl
  | cons x xs ih =>
    intro n
    simp only [List.enumFrom]
    by_cases hx : (0 : Int) ≤ x
    · rw [List.filter_cons_of_pos (by simpa using hx),
        List.filter_cons_of_pos (by simpa using hx), List.map_cons, ih]
    · rw [List.filter_cons_of_neg (by simpa using hx),
        List.filter_cons_of_neg (by simpa using hx), ih]

/-- Dropping the index tags from the played slots gives exactly the played
fret values. -/
theorem playedSnd_eq (tabData : List TabEntry) :
    ((allSlots tabData).filter (fun p => 0 ≤ p.2)).map Prod.snd =
      playedFrets tabData := by
  unfold allSlots playedFrets
  induction tabData with
  | nil => rfl
  | cons ch rest ih =>
    simp only [List.flatMap_cons, List.filter_append, List.map_append, ih]
    congr 1
    rw [List.enum_eq_enumFrom]
    exact enumFrom_filter_snd ch.strings 0

/-- The running total of the per-chord reduce is the count of played slots
so far. -/
theorem totalNotes_eq (tabData : List TabEntry) :
    ∀ n : Nat,
      tabData.foldl
        (fun acc chord => acc + (chord.strings.filter (fun fret => 0 ≤ fret)).length)
        n = n + (playedFrets tabData).length := by
  induction tabData with
  | nil => intro n; simp [playedFrets]
  | cons ch rest ih =>
    intro n
    simp only [List.foldl_cons]
    rw [ih]
    unfold playedFrets
    simp only [List.flatMap_cons, List.filter_append, List.length_append]
    omega

/-- The used-string set of the scan matches the set of string indices that
carry a played fret in some entry. -/
theorem usedStrings_set_eq (tabData : List TabEntry)
    (h6 : ∀ ch ∈ tabData, ch.strings.length = 6) :
    (((allSlots tabData).filter (fun p => 0 ≤ p.2)).map Prod.fst).toFinset =
      (Finset.range 6).filter
        (fun s => ∃ ch ∈ tabData, ∃ p ∈ ch.strings.enum, p.1 = s ∧ 0 ≤ p.2) := by
  ext s
  simp only [List.mem_toFinset, List.mem_map, List.mem_filter, Finset.mem_filter,
    Finset.mem_range, allSlots, List.mem_flatMap, decide_eq_true_eq]
  constructor
  · rintro ⟨⟨i, f⟩, ⟨⟨ch, hch, hslot⟩, hf⟩, rfl⟩
    have hget : ch.strings.get? i = some f := List.mk_mem_enum_iff_get?.1 hslot
    have hlt : i < ch.strings.length := by
      rcases List.get?_eq_some.1 hget with ⟨h, _⟩
      exact h
    rw [h6 ch hch] at hlt
    exact ⟨hlt, ch, hch, (i, f), hslot, rfl, hf⟩
  · rintro ⟨hs, ch, hch, ⟨i, f⟩, hslot, rfl, hf⟩
    exact ⟨(i, f), ⟨⟨ch, hch, hslot⟩, hf⟩, rfl⟩

/-- C1: the aggregate statistics are exactly: chord count = number of
entries, note count = number of played (fret ≥ 0) slots, strings used =
cardinality of the set of string indices played in at least one entry, and
fret range = min and max of the played frets, absent exactly when nothing
is played — for every tab whose entries have 6-slot string arrays. -/
theorem getTabStats_aggregates (tabData : List TabEntry)
    (h6 : ∀ ch ∈ tabData, ch.strings.length = 6) :
    (getTabStats tabData).totalChords = tabData.length ∧
    (getTabStats tabData).totalNotes = (playedFrets tabData).length ∧
    (getTabStats tabData).usedStrings =
      ((Finset.range 6).filter
        (fun s => ∃ ch ∈ tabData, ∃ p ∈ ch.strings.enum, p.1 = s ∧ 0 ≤ p.2)).card ∧
    ((getTabStats tabData).fretRange = none ↔ playedFrets tabData = []) ∧
    (∀ mn mx, (getTabStats tabData).fretRange = some (mn, mx) →
      mn ∈ playedFrets tabData ∧ mx ∈ playedFrets tabData ∧
      ∀ f ∈ playedFrets tabData, mn ≤ f ∧ f ≤ mx) := by
  have hscan := foldl_allSlots statsStep tabData ((∅ : Finset Nat), (none : Option (Int × Int)))
  have hfst : (getTabStats tabData).usedStrings =
      ((((allSlots tabData).filter (fun p => 0 ≤ p.2)).map Prod.fst).toFinset).card := by
    show ((tabData.foldl (fun st chord => chord.strings.enum.foldl statsStep st)
      ((∅ : Finset Nat), (none : Option (Int × Int)))).1).card = _
    rw [hscan, statsScan_fst]
    simp
  have hsnd : (getTabStats tabData).fretRange =
      (playedFrets tabData).foldl fretRangeStep none := by
    show (tabData.foldl (fun st chord => chord.strings.enum.foldl statsStep st)
      ((∅ : Finset Nat), (none : Option (Int × Int)))).2 = _
    rw [hscan, statsScan_snd, playedSnd_eq]
  refine ⟨rfl, ?_, ?_, ?_, ?_⟩
  · show tabData.foldl
      (fun acc chord => acc + (chord.strings.filter (fun fret => 0 ≤ fret)).length) 0 = _
    rw [totalNotes_eq]
    simp
  · rw [hfst, usedStrings_set_eq tabData h6]
  · rw [hsnd]
    match hpf : playedFrets tabData with
    | [] => simp
    | f :: fs =>
      simp only [List.foldl_cons]
      show (fs.foldl fretRangeStep (some (f, f)) = none) ↔ _
      rw [fretRangeFold_some]
      simp
  · intro mn mx hr
    rw [hsnd] at hr
    match hpf : playedFrets tabData with
    | [] => rw [hpf] at hr; cases hr
    | f :: fs =>
      rw [hpf] at hr
      simp only [List.foldl_cons] at hr
      rw [show fretRangeStep none f = some (f, f) from rfl, fretRangeFold_some] at hr
      obtain ⟨hmn, hmx⟩ := Prod.mk.injEq _ _ _ _ ▸ Option.some_inj.1 hr
      obtain ⟨hminmem, hminle, hminall⟩ := foldl_min_spec fs f
      obtain ⟨hmaxmem, hmaxle, hmaxall⟩ := foldl_max_spec fs f
      subst hmn
      subst hmx
      refine ⟨?_, ?_, ?_⟩
      · rcases hminmem with h | h
        · rw [h]; exact List.mem_cons_self _ _
        · exact List.mem_cons_of_mem f h
      · rcases hmaxmem with h | h
        · rw [h]; exact List.mem_cons_self _ _
        · exact List.mem_cons_of_mem f h
      · intro x hx
        rcases List.mem_cons.1 hx with rfl | hx
        · exact ⟨hminle, hmaxle⟩
        · exact ⟨hminall x hx, hmaxall x hx⟩

/-- Witness for the aggregate-statistics claim on a concrete two-entry
tab. -/
theorem getTabStats_aggregates_witness :
    (getTabStats [⟨0, [1, -1, -1, -1, -1, -1]⟩, ⟨1, [3, 0, -1, -1, -1, 24]⟩]).totalNotes =
      (playedFrets [⟨0, [1, -1, -1, -1, -1, -1]⟩, ⟨1, [3, 0, -1, -1, -1, 24]⟩]).length :=
  (getTabStats_aggregates
    [⟨0, [1, -1, -1, -1, -1, -1]⟩, ⟨1, [3, 0, -1, -1, -1, 24]⟩] (by decide)).2.1

/-- A candidate for a pitch has that pitch, a fret within the range 0..24,
and satisfies the open-pitch identity. -/
theorem mem_candidatesFor {c : Cand} {p : Int} (h : c ∈ candidatesFor p) :
    c.pitch = p ∧ 0 ≤ c.fret ∧ c.fret ≤ 24 ∧ openPitchAt c.string + c.fret = p := by
  unfold candidatesFor at h
  rcases List.mem_filterMap.1 h with ⟨s, _, hc⟩
  rcases Option.map_eq_some'.1 hc with ⟨f, hf, rfl⟩
  simp only [fretFor] at hf
  by_cases hcond : 0 ≤ p - openPitchAt s ∧ p - openPitchAt s ≤ 24
  · rw [if_pos hcond] at hf
    obtain rfl := Option.some_inj.1 hf
    refine ⟨rfl, hcond.1, hcond.2, ?_⟩
    show openPitchAt s + (p - openPitchAt s) = p
    omega
  · rw [if_neg hcond] at hf
    cases hf

/-- Every candidate of an enumerated assignment is a genuine candidate of
its own pitch, and that pitch comes from the chord. -/
theorem mem_enumAssign (ps : List Int) :
    ∀ (used : List Nat) (a : List Cand), a ∈ enumAssign ps used →
      ∀ c ∈ a, c ∈ candidatesFor c.pitch ∧ c.pitch ∈ ps := by
  induction ps with
  | nil =>
    intro used a ha c hc
    simp only [enumAssign, List.mem_singleton] at ha
    subst ha
    cases hc
  | cons p ps ih =>
    intro used a ha c hc
    unfold enumAssign at ha
    rcases List.mem_flatMap.1 ha with ⟨c₀, hc₀, ha⟩
    rcases List.mem_map.1 ha with ⟨a', ha', rfl⟩
    have hc₀cand : c₀ ∈ candidatesFor p := List.mem_of_mem_filter hc₀
    rcases List.mem_cons.1 hc with rfl | hc
    · have hp : c.pitch = p := (mem_candidatesFor hc₀cand).1
      exact ⟨by rw [hp]; exact hc₀cand, by rw [hp]; exact List.mem_cons_self _ _⟩
    · obtain ⟨h1, h2⟩ := ih (c₀.string :: used) a' ha' c hc
      exact ⟨h1, List.mem_cons_of_mem p h2⟩

/-- The selected assignment is one of the enumerated ones. -/
theorem pickMin_mem (cost : List Cand → ℚ) (l : List (List Cand))
    (a : List Cand) (h : pickMin cost l = some a) : a ∈ l := by
  obtain ⟨l₁, l₂, hsplit, -, -⟩ := pickMin_split cost l a h
  rw [hsplit]
  exact List.mem_append.2 (Or.inr (List.mem_cons_self _ _))

/-- The per-chord solve either rejects (empty assignment) or returns one of
the enumerated complete assignments. -/
theorem solveChord_cases (cfg : SolverCfg) (prev : ℚ) (pitches : List Int) :
    solveChord cfg prev pitches = [] ∨
      solveChord cfg prev pitches ∈ enumAssign pitches [] := by
  unfold solveChord
  match hpick : pickMin (costOf cfg prev) (enumAssign pitches []) with
  | none => exact Or.inl rfl
  | some a =>
    exact Or.inr (by simpa using pickMin_mem (costOf cfg prev) _ a hpick)

/-- Every fret value stored in an entry is `-1` or the fret of one of the
assignment's candidates. -/
theorem entryOf_mem_strings (t : ℚ) (a : List Cand) (f : Int)
    (h : f ∈ (entryOf t a).strings) :
    f = -1 ∨ ∃ c ∈ a, c.fret = f := by
  unfold entryOf at h
  rcases List.mem_map.1 h with ⟨s, -, rfl⟩
  match hfind : a.find? (fun c => c.string == s) with
  | none => rw [hfind]; exact Or.inl rfl
  | some c =>
    rw [hfind]
    exact Or.inr ⟨c, List.mem_of_find?_eq_some hfind, rfl⟩

/-- A played slot of an entry comes from a candidate assigned to exactly
that string. -/
theorem entryOf_slot (t : ℚ) (a : List Cand) (s : Nat) (f : Int)
    (h : (entryOf t a).strings[s]? = some f) (hf : 0 ≤ f) :
    ∃ c ∈ a, c.string = s ∧ c.fret = f := by
  unfold entryOf at h
  rw [List.getElem?_map] at h
  cases hs : (List.range 6)[s]? with
  | none => rw [hs] at h; cases h
  | some s' =>
    rw [hs] at h
    have hs6 : s < 6 := by
      by_contra hge
      rw [List.getElem?_eq_none (by simpa [List.length_range] using hge)] at hs
      cases hs
    rw [List.getElem?_range hs6] at hs
    obtain rfl := Option.some_inj.1 hs
    simp only [Option.map_some'] at h
    obtain hval := Option.some_inj.1 h
    match hfind : a.find? (fun c => c.string == s) with
    | none =>
      rw [hfind] at hval
      simp only at hval
      omega
    | some c =>
      rw [hfind] at hval
      simp only at hval
      refine ⟨c, List.mem_of_find?_eq_some hfind, ?_, hval⟩
      have hpred := List.find?_some hfind
      simpa using hpred

/-- Every note of every produced chord is one of the input events. -/
theorem groupChords_notes_mem (w : ℚ) (evs : List NoteEvent) :
    ∀ c ∈ groupChords w evs, ∀ n ∈ c.notes, n ∈ evs := by
  intro c hc n hn
  unfold groupChords at hc
  rcases List.mem_map.1 hc with ⟨g, hg, rfl⟩
  cases hev : sortEvents evs with
  | nil =>
    rw [hev] at hg
    simp [sweepGroups] at hg
  | cons e rest =>
    rw [hev] at hg
    simp only [sweepGroups] at hg
    have hsrc := sweepAux_sources w rest e [] g hg
    have hsub : List.Sublist (mkChord g).notes (g.1 :: g.2) :=
      dedupPitchAux_sublist _ []
    have hn' : n ∈ g.1 :: g.2 := hsub.mem hn
    have hmem : n ∈ sortEvents evs := by
      rw [hev]
      rcases List.mem_cons.1 hn' with rfl | hn'
      · rcases hsrc.1 with h | h
        · exact h ▸ List.mem_cons_self e rest
        · exact List.mem_cons_of_mem e h
      · rcases hsrc.2 n hn' with h | h
        · cases h
        · exact List.mem_cons_of_mem e h
    exact (List.perm_insertionSort eventLe evs).mem_iff.1 hmem

/-- Each pipeline entry is built by `entryOf` from some produced chord and
a (possibly rejected) assignment enumerated for its post-drop pitches. -/
theorem processChords_entries (cfg : SolverCfg) (cs : List Chord) :
    ∀ prev, ∀ e ∈ (processChords cfg prev cs).1,
      ∃ c ∈ cs, ∃ a : List Cand,
        (a = [] ∨ a ∈ enumAssign ((dropNotes c.notes).1.map NoteEvent.pitch) []) ∧
        e = entryOf c.time a := by
  induction cs with
  | nil => intro prev e he; cases he
  | cons c rest ih =>
    intro prev e he
    simp only [processChords] at he
    rcases List.mem_cons.1 he with rfl | he
    · exact ⟨c, List.mem_cons_self _ _, _,
        solveChord_cases cfg prev ((dropNotes c.notes).1.map NoteEvent.pitch), rfl⟩
    · obtain ⟨c', hc', a, ha, hee⟩ := ih _ e he
      exact ⟨c', List.mem_cons_of_mem c hc', a, ha, hee⟩

/-- C4: in every produced TabSequence, every stored fret value is either
`-1` (string not played) or lies in the range 0..24; no consumer-visible
played fret exceeds 24. -/
theorem produced_frets_in_range (cfg : SolverCfg) (w : ℚ) (evs : List NoteEvent) :
    ∀ e ∈ (midiToTab cfg w evs).1, ∀ f ∈ e.strings,
      f = -1 ∨ (0 ≤ f ∧ f ≤ 24) := by
  intro e he f hf
  obtain ⟨c, -, a, ha, rfl⟩ := processChords_entries cfg (groupChords w evs) 0 e he
  rcases entryOf_mem_strings _ _ _ hf with h | ⟨cand, hcand, rfl⟩
  · exact Or.inl h
  · rcases ha with rfl | ha
    · cases hcand
    · obtain ⟨hc1, -⟩ := mem_enumAssign _ _ _ ha cand hcand
      obtain ⟨-, h0, h24, -⟩ := mem_candidatesFor hc1
      exact Or.inr ⟨h0, h24⟩

/-- Witness for the fret-range claim: concrete run on middle C; the one
played slot holds fret 1. -/
theorem produced_frets_in_range_witness :
    (1 : Int) = -1 ∨ ((0 : Int) ≤ 1 ∧ (1 : Int) ≤ 24) :=
  produced_frets_in_range defaultCfg 1 [⟨60, 0, 1, 80⟩]
    ⟨0, [-1, 1, -1, -1, -1, -1]⟩ (by decide) 1 (by decide)

/-- C5: pitch fidelity — every played slot of every produced entry sounds
the pitch of one of the input notes: the assigned string's open pitch plus
the stored fret is the pitch of an input note. -/
theorem pitch_fidelity (cfg : SolverCfg) (w : ℚ) (evs : List NoteEvent) :
    ∀ e ∈ (midiToTab cfg w evs).1, ∀ s : Nat, ∀ f : Int,
      e.strings[s]? = some f → 0 ≤ f →
      ∃ p, openPitchAt s + f = p ∧ p ∈ evs.map NoteEvent.pitch := by
  intro e he s f hsf hf
  obtain ⟨c, hcmem, a, ha, rfl⟩ := processChords_entries cfg (groupChords w evs) 0 e he
  obtain ⟨cand, hcand, rfl, rfl⟩ := entryOf_slot _ _ _ _ hsf hf
  rcases ha with rfl | ha
  · cases hcand
  · obtain ⟨hc1, hp⟩ := mem_enumAssign _ _ _ ha cand hcand
    obtain ⟨-, -, -, hopen⟩ := mem_candidatesFor hc1
    refine ⟨cand.pitch, hopen, ?_⟩
    rcases List.mem_map.1 hp with ⟨n, hn, hnp⟩
    have hsubnotes : List.Sublist (dropNotes c.notes).1 c.notes :=
      (dropUntilFeasible_main c.notes.length c.notes (Nat.le_refl _)).2.1
    have hn' : n ∈ c.notes := hsubnotes.mem hn
    exact List.mem_map.2 ⟨n, groupChords_notes_mem w evs c hcmem n hn', hnp⟩

/-- Witness for pitch fidelity: in the middle-C run, string 1 (open 59)
fret 1 sounds pitch 60, the input pitch. -/
theorem pitch_fidelity_witness :
    ∃ p, openPitchAt 1 + 1 = p ∧
      p ∈ ([⟨60, 0, 1, 80⟩] : List NoteEvent).map NoteEvent.pitch :=
  pitch_fidelity defaultCfg 1 [⟨60, 0, 1, 80⟩]
    ⟨0, [-1, 1, -1, -1, -1, -1]⟩ (by decide) 1 1 (by decide) (by decide)

end Theorems

end GuitarTab
